import Mathlib

/-!
Verification of the deep-learning concept visualizer repository.

Each section embeds one part of the source shallowly in Lean:
JS numbers are modelled as `ℝ` (or `ℚ`/`ℤ` where the code only ever
manipulates exact integers or rationals), arrays as `List`s or as index
functions, and React `useState` handlers as explicit state-transformer
functions.  The theorems at the end settle the specification claims.
-/

/-! ## Transport controls (GradientDescentViz.tsx, LLMViz and LLMFlowViz)

Each visualizer holds a `playing` flag and an integer cursor; the button
and slider `onClick`/`onChange` handlers are embedded as functions from
the view state to the view state. -/

/-- View state of `GradientDescentViz`: the `isPlaying` flag and the
`visibleStep` cursor (a JS number, always an integer here). -/
structure GdTransport where
  isPlaying : Bool
  visibleStep : ℤ
  deriving DecidableEq, Repr

/-- Reset button of `GradientDescentViz`: `onClick={() => setVisibleStep(0)}`.
It touches only the cursor. -/
def gdReset (s : GdTransport) : GdTransport :=
  { s with visibleStep := 0 }

/-- Prev Step button: `setIsPlaying(false); setVisibleStep(s => Math.max(0, s - 1))`. -/
def gdPrevStep (s : GdTransport) : GdTransport :=
  { isPlaying := false, visibleStep := max 0 (s.visibleStep - 1) }

/-- Next Step button: `setIsPlaying(false); setVisibleStep(s => Math.min(path.length - 1, s + 1))`. -/
def gdNextStep (pathLen : ℤ) (s : GdTransport) : GdTransport :=
  { isPlaying := false, visibleStep := min (pathLen - 1) (s.visibleStep + 1) }

/-- Visible Step slider: `setIsPlaying(false); setVisibleStep(Number(e.target.value))`. -/
def gdScrub (v : ℤ) (_s : GdTransport) : GdTransport :=
  { isPlaying := false, visibleStep := v }

/-- View state of `LLMViz` (src/unnamed/part_000): `playing` and `contextLen`. -/
structure LlmTransport where
  playing : Bool
  contextLen : ℤ
  deriving DecidableEq, Repr

/-- TOKENS.length in LLMViz: the demo sentence has nine tokens. -/
def llmTokensLen : ℤ := 9

/-- Reset button of `LLMViz`: `onClick={() => setContextLen(4)}`. -/
def llmReset (s : LlmTransport) : LlmTransport :=
  { s with contextLen := 4 }

/-- Prev Token button: `setPlaying(false); setContextLen(v => Math.max(4, v - 1))`. -/
def llmPrevToken (s : LlmTransport) : LlmTransport :=
  { playing := false, contextLen := max 4 (s.contextLen - 1) }

/-- Next Token button: `setPlaying(false); setContextLen(v => Math.min(TOKENS.length, v + 1))`. -/
def llmNextToken (s : LlmTransport) : LlmTransport :=
  { playing := false, contextLen := min llmTokensLen (s.contextLen + 1) }

/-- Context length slider: `setPlaying(false); setContextLen(Number(e.target.value))`. -/
def llmScrub (v : ℤ) (_s : LlmTransport) : LlmTransport :=
  { playing := false, contextLen := v }

/-- View state of `LLMFlowViz`: `playing` and the `active` stage index. -/
structure FlowTransport where
  playing : Bool
  active : ℤ
  deriving DecidableEq, Repr

/-- STEPS.length in LLMFlowViz: seven pipeline stages. -/
def flowStepsLen : ℤ := 7

/-- Prev button of `LLMFlowViz`: `onClick={() => setActive(s => Math.max(0, s - 1))}`.
No `setPlaying` call appears in this handler. -/
def flowPrev (s : FlowTransport) : FlowTransport :=
  { s with active := max 0 (s.active - 1) }

/-- Next button of `LLMFlowViz`: `onClick={() => setActive(s => Math.min(STEPS.length - 1, s + 1))}`.
No `setPlaying` call appears in this handler. -/
def flowNext (s : FlowTransport) : FlowTransport :=
  { s with active := min (flowStepsLen - 1) (s.active + 1) }

/-! ## Auto-play tick rules (C3)

While playing, a `setInterval` callback advances the cursor. -/

/-- GradientDescentViz tick: `setVisibleStep(s => s >= path.length - 1 ? 0 : s + 1)`. -/
def gdTick (pathLen : ℤ) (s : ℤ) : ℤ :=
  if s ≥ pathLen - 1 then 0 else s + 1

/-- LLMViz tick: `setContextLen(v => v >= TOKENS.length ? 4 : v + 1)`. -/
def llmTick (v : ℤ) : ℤ :=
  if v ≥ llmTokensLen then 4 else v + 1

/-! ## PCA fixture loader (LLMFlowViz.tsx / PCAViz, `loadPcaArtifact`)

The module-level mutable state is the pair of `pcaDataCache` and
`pcaDataPromise`; an in-flight fetch is identified by a request id.
`load` is the body of `loadPcaArtifact`; `settleSuccess` and
`settleFailure` are the `.then`/`.catch` continuations of the fetch. -/

/-- Module-level loader state: `pcaDataCache` and `pcaDataPromise`
(the latter abstracted to the id of the in-flight request). -/
structure LoaderState (A : Type) where
  cache : Option A
  inflight : Option ℕ
  deriving DecidableEq, Repr

/-- What one call of `loadPcaArtifact` returns: the cached artifact
(`Promise.resolve(pcaDataCache)`), the already in-flight promise, or a
newly started fetch (the only case that issues a network request). -/
inductive LoadOutcome (A : Type) where
  | cached (a : A)
  | joined (req : ℕ)
  | started (req : ℕ)
  deriving DecidableEq, Repr

/-- Body of `loadPcaArtifact`: return the cache if set, else the
in-flight promise if set, else start a fetch (`fresh` is the id of the
new request) and record it in `pcaDataPromise`. -/
def load {A : Type} (fresh : ℕ) (s : LoaderState A) : LoadOutcome A × LoaderState A :=
  match s.cache with
  | some a => (.cached a, s)
  | none =>
    match s.inflight with
    | some r => (.joined r, s)
    | none => (.started fresh, { s with inflight := some fresh })

/-- Fetch success continuation: `pcaDataCache = artifact` (the promise
variable is left as-is by the source). -/
def settleSuccess {A : Type} (a : A) (s : LoaderState A) : LoaderState A :=
  { s with cache := some a }

/-- Fetch failure continuation (`.catch`): `pcaDataPromise = null`;
the cache is not touched. -/
def settleFailure {A : Type} (s : LoaderState A) : LoaderState A :=
  { s with inflight := none }

/-! ## Tab shell (App.tsx) -/

/-- The ids of the `concepts` array in App.tsx. -/
def conceptIds : List String := ["svd", "pca", "gd", "cnn", "rnn", "llm", "llmflow"]

/-- DEFAULT_TAB in App.tsx. -/
def DEFAULT_TAB : String := "svd"

/-- `isConceptId`: `if (!value) return false; return concepts.some(c => c.id === value)`.
JS `!value` is true for `null`/`undefined` and for the empty string. -/
def isConceptId (value : Option String) : Bool :=
  match value with
  | none => false
  | some v => if v = "" then false else conceptIds.contains v

/-- `getTabFromUrl`: `isConceptId(value) ? value : DEFAULT_TAB`, where
`value` is the `tab` query parameter (or `none` when absent). -/
def getTabFromUrl (value : Option String) : String :=
  if isConceptId value then value.getD DEFAULT_TAB else DEFAULT_TAB

/-- `updateUrlTab`: the browser history is modelled as the list of URLs
(most recent first), a URL being reduced to its `tab` parameter.
`replaceState` swaps the current entry; `pushState` adds one. -/
def updateUrlTab (tab : String) (replace : Bool) (hist : List (Option String)) :
    List (Option String) :=
  if replace then some tab :: hist.tail else some tab :: hist

/-- The mount effect of `App`: if the current URL carries no valid `tab`
value, write `active` with `replace = true`. -/
def mountSyncUrl (active : String) (hist : List (Option String)) : List (Option String) :=
  if isConceptId (hist.headD none) then hist else updateUrlTab active true hist

/-- `changeTab`: ignore a click on the active tab, otherwise set the
active concept and push a new history entry (`replace = false`). -/
def changeTab (tab active : String) (hist : List (Option String)) :
    String × List (Option String) :=
  if tab = active then (active, hist) else (tab, updateUrlTab tab false hist)

/-! ## PCA panel sample-index clamping (PCAViz, C10) -/

/-- The preset keys `"6" | "12" | "14" | "18" | "30"` of the fixture. -/
inductive PresetKey where
  | p6 | p12 | p14 | p18 | p30
  deriving DecidableEq, Repr

/-- The parts of the `PcaArtifact` record that `PCAViz` indexes with the
selected sample index. -/
structure PcaFixture where
  testVectors : List (List ℚ)
  testLabels : List ℤ
  reconstructions : PresetKey → List (List ℚ)

/-- `sampleCount = data.testVectors.length`. -/
def sampleCount (d : PcaFixture) : ℕ := d.testVectors.length

/-- `selectedIndex = Math.min(sampleIndex, sampleCount - 1)`. -/
def selectedIndex (sampleIndex : ℤ) (d : PcaFixture) : ℤ :=
  min sampleIndex ((sampleCount d : ℤ) - 1)

/-! ## Attention visualizer math (src/unnamed/part_000, `LLMViz`)

The head-row and merge arithmetic is exact rational arithmetic in the
source (constants, additions, divisions), so it is modelled over `ℚ`;
only the exp-based softmax at the end of the pipeline needs `ℝ`. -/

namespace LLM

/-- Grammatical roles of the demo tokens (the `ROLES` constant). -/
inductive Role where
  | subject | verb | object | connector | prep | adverb
  deriving DecidableEq, Repr

/-- Topics of the demo tokens (the `TOPIC` constant). -/
inductive Topic where
  | agent | analysis | link | writing | target | time
  deriving DecidableEq, Repr

/-- `ROLES = ["subject","verb","object","connector","verb","object","prep","object","adverb"]`. -/
def ROLES : List Role :=
  [.subject, .verb, .object, .connector, .verb, .object, .prep, .object, .adverb]

/-- `TOPIC = ["agent","analysis","analysis","link","writing","writing","target","target","time"]`. -/
def TOPIC : List Topic :=
  [.agent, .analysis, .analysis, .link, .writing, .writing, .target, .target, .time]

/-- Denominator chosen by `normalize`: `values.reduce((a,b) => a+b, 0) || 1`,
i.e. the sum, with `1` substituted when the sum is zero. -/
def normalizeDenom (values : List ℚ) : ℚ :=
  if values.sum = 0 then 1 else values.sum

/-- `normalize(values)`: divide every entry by the guarded sum. -/
def normalize (values : List ℚ) : List ℚ :=
  values.map (fun v => v / normalizeDenom values)

/-- `nearestLeft` loop body: scan indices `i-1, i-2, …, 0` and return the
first index whose role satisfies the predicate (JS returns `-1`,
modelled as `none`, when the scan fails). -/
def nearestLeftAux (p : Role → Prop) [DecidablePred p] : ℕ → Option ℕ
  | 0 => none
  | i + 1 => if p (ROLES.getD i .connector) then some i else nearestLeftAux p i

/-- `nearestLeft(idx, predicate)`. -/
def nearestLeft (idx : ℕ) (p : Role → Prop) [DecidablePred p] : Option ℕ :=
  nearestLeftAux p idx

/-- The role-dependent additions of `head1Row` to cell `k` of the row for
query `qi` (the `if role === …` block): each branch adds its constants at
the computed target indices, on top of the `0.02` base. -/
def head1Extra (qi k : ℕ) : ℚ :=
  match ROLES.getD qi .connector with
  | .verb =>
    (match nearestLeft qi (fun r => r = .subject ∨ r = .object) with
     | some subj => if k = subj then 2.2 else 0
     | none => 0) +
    (if 0 < qi ∧ k = qi - 1 then 0.9 else 0)
  | .object =>
    (match nearestLeft qi (fun r => r = .verb) with
     | some v => if k = v then 2.4 else 0
     | none => 0) +
    (if 0 < qi ∧ k = qi - 1 then 0.7 else 0)
  | .adverb =>
    (match nearestLeft qi (fun r => r = .verb) with
     | some v => if k = v then 1.8 else 0
     | none => 0)
  | _ =>
    (if 0 < qi ∧ k = qi - 1 then 1.1 else 0) + (if k = qi then 0.4 else 0)

/-- Cell `k` of the un-normalized `head1Row(qi)` array: the `0.02` fill,
the role-dependent additions, and the final recency bonus
`0.15 / (qi - k + 1)` added to every cell of the row. -/
def head1Base (qi k : ℕ) : ℚ :=
  0.02 + head1Extra qi k + 0.15 / (((qi - k : ℕ) : ℚ) + 1)

/-- `head1Row(qi)`: the length-`qi+1` array, then `normalize`. -/
def head1Row (qi : ℕ) : List ℚ :=
  normalize (List.ofFn fun k : Fin (qi + 1) => head1Base qi k)

/-- Cell `k` of the un-normalized `head2Row(qi)` array: `0.02` fill, a
`1/dist` bonus for content words, `1.4` for a topic match with the query
and `0.4` on the diagonal. -/
def head2Base (qi k : ℕ) : ℚ :=
  0.02 +
  (if ROLES.getD k .connector = .subject ∨ ROLES.getD k .connector = .verb ∨
      ROLES.getD k .connector = .object
   then 1 / (((qi - k : ℕ) : ℚ) + 1) else 0) +
  (if TOPIC.getD k .agent = TOPIC.getD qi .agent then 1.4 else 0) +
  (if k = qi then 0.4 else 0)

/-- `head2Row(qi)`: the length-`qi+1` array, then `normalize`. -/
def head2Row (qi : ℕ) : List ℚ :=
  normalize (List.ofFn fun k : Fin (qi + 1) => head2Base qi k)

/-- `rowToSquare(row, size)`: pad/truncate a row to length `size`,
`i <= row.length - 1 ? row[i] : 0`. -/
def rowToSquare (row : List ℚ) (size : ℕ) : List ℚ :=
  List.ofFn fun i : Fin size => if (i : ℕ) ≤ row.length - 1 then row.getD i 0 else 0

/-- Entry `k` of the pre-normalization merged row for query `qi`:
`blend * h1[qi][k] + (1 - blend) * h2[qi][k]`, the head rows being the
`rowToSquare`-padded `head1Row`/`head2Row`. -/
def mergedRaw (blend : ℚ) (n qi k : ℕ) : ℚ :=
  blend * (rowToSquare (head1Row qi) n).getD k 0 +
    (1 - blend) * (rowToSquare (head2Row qi) n).getD k 0

/-- Denominator of the merged row: `row.slice(0, qi + 1).reduce((a,b) => a+b, 0) || 1`
(for `qi < n` the slice is exactly the first `qi+1` cells). -/
def mergedDenom (blend : ℚ) (n qi : ℕ) : ℚ :=
  if (∑ k in Finset.range (qi + 1), mergedRaw blend n qi k) = 0 then 1
  else ∑ k in Finset.range (qi + 1), mergedRaw blend n qi k

/-- The merged attention row for query `qi`:
`row.map((v, k) => (k <= qi ? v / sum : 0))`. -/
def mergedRow (blend : ℚ) (n qi : ℕ) : List ℚ :=
  List.ofFn fun k : Fin n =>
    if (k : ℕ) ≤ qi then mergedRaw blend n qi k / mergedDenom blend n qi else 0

/-- Floored softmax temperature: `Math.max(0.05, temperature)`. -/
noncomputable def softmaxTemp (temperature : ℝ) : ℝ := max 0.05 temperature

/-- JS `Math.max(...values)` for the non-empty lists this code applies it
to (on `[]` JS yields `-Infinity`; `softmax` is only ever called on the
five-entry logit list). -/
noncomputable def maxList (l : List ℝ) : ℝ :=
  match l with
  | [] => 0
  | x :: xs => xs.foldl max x

/-- The `scaled` array of `softmax(values, temperature)`:
`values.map(v => v / t)` with the floored temperature. -/
noncomputable def scaledLogits (values : List ℝ) (temperature : ℝ) : List ℝ :=
  values.map (fun v => v / softmaxTemp temperature)

/-- The `exps` array of `softmax`: subtract the running max of `scaled`,
then exponentiate. -/
noncomputable def softmaxExps (values : List ℝ) (temperature : ℝ) : List ℝ :=
  (scaledLogits values temperature).map
    (fun v => Real.exp (v - maxList (scaledLogits values temperature)))

/-- Guarded softmax denominator: `s + 1e-9` where `s` is the sum of `exps`. -/
noncomputable def softmaxDenom (values : List ℝ) (temperature : ℝ) : ℝ :=
  (softmaxExps values temperature).sum + 1e-9

/-- `softmax(values, temperature)` of the attention visualizer. -/
noncomputable def softmax (values : List ℝ) (temperature : ℝ) : List ℝ :=
  (softmaxExps values temperature).map (fun v => v / softmaxDenom values temperature)

end LLM

/-! ## RNN visualizer softmax (RNNViz.tsx, C6) -/

namespace RNN

/-- The `exps` array of the RNNViz `softmax(values)` (no temperature). -/
noncomputable def softmaxExps (values : List ℝ) : List ℝ :=
  values.map (fun v => Real.exp (v - LLM.maxList values))

/-- Guarded denominator of the RNNViz softmax: `s + 1e-9`. -/
noncomputable def softmaxDenom (values : List ℝ) : ℝ :=
  (softmaxExps values).sum + 1e-9

/-- The RNNViz `softmax(values)`. -/
noncomputable def softmax (values : List ℝ) : List ℝ :=
  (softmaxExps values).map (fun v => v / softmaxDenom values)

end RNN

/-! ## Attention matrix rendering (`renderMatrix` in part_000, C4) -/

/-- What `renderMatrix` emits for one cell: the CSS class string and, for
unmasked cells only, the alpha of the value-derived `rgba` background
(`0.08 + v * 0.92`); a masked cell's style carries no background at all. -/
structure CellView where
  className : String
  background : Option ℚ
  deriving DecidableEq, Repr

/-- One cell of `renderMatrix`: `masked = c > r`; masked cells get the
`llm-cell llm-cell-mask` class and a style with only width/height, other
cells get a value-derived background. -/
def renderCell (queryIdx r c : ℕ) (v : ℚ) : CellView :=
  if c > r then
    { className := "llm-cell llm-cell-mask", background := none }
  else
    { className := if r = queryIdx then "llm-cell llm-cell-active" else "llm-cell",
      background := some (0.08 + v * 0.92) }

/-! ## Convolution (CNNViz.tsx, `conv2d`, C9)

Pixel values are exact rationals; images and kernels are lists of rows. -/

namespace CNN

/-- The guarded pixel read inside `conv2d`'s inner loop:
`iy >= 0 && iy < image.length && ix >= 0 && ix < image[0].length ? image[iy][ix] : 0`
(zero padding; note the column bound comes from the first row). -/
def pixelAt (image : List (List ℚ)) (iy ix : ℤ) : ℚ :=
  if 0 ≤ iy ∧ iy < image.length ∧ 0 ≤ ix ∧ ix < (image.headD []).length then
    (image.getD iy.toNat []).getD ix.toNat 0
  else 0

/-- `conv2d(image, kernel)`: `outSize = image.length`,
`pad = Math.floor(kernel.length / 2)`, output cell `(y, x)` is the
absolute value of the windowed weighted sum. -/
def conv2d (image kernel : List (List ℚ)) : List (List ℚ) :=
  List.ofFn fun y : Fin image.length =>
    List.ofFn fun x : Fin image.length =>
      |∑ ky in Finset.range kernel.length,
        ∑ kx in Finset.range (kernel.headD []).length,
          pixelAt image ((y : ℤ) + ky - (kernel.length / 2 : ℕ))
              ((x : ℤ) + kx - (kernel.length / 2 : ℕ)) *
            (kernel.getD ky []).getD kx 0|

end CNN

/-! ## PCA precompute (src/unnamed/part_001, C8)

`DIM = 784`-entry arrays are modelled as index functions `ℕ → ℚ` (the
source never reads an index outside `[0, DIM)`); `dot` and
`squaredDistance` over such arrays become sums over `Finset.range DIM`.
All arithmetic in `projectVector`/`reconstructVector` is rational. -/

namespace PCA

/-- `IMAGE_SIDE = 28`. -/
def IMAGE_SIDE : ℕ := 28

/-- `DIM = IMAGE_SIDE * IMAGE_SIDE`. -/
def DIM : ℕ := IMAGE_SIDE * IMAGE_SIDE

/-- `dot(a, b)` over length-`DIM` arrays. -/
def dot (a b : ℕ → ℚ) : ℚ :=
  ∑ j in Finset.range DIM, a j * b j

/-- The relevant fields of the fitted `PcaModel`: the mean vector and the
principal components (each a length-`DIM` array). -/
structure PcaModel where
  mean : ℕ → ℚ
  components : List (ℕ → ℚ)

/-- The `centered` array of `projectVector`: `vector.map((v, i) => v - pca.mean[i])`. -/
def centered (v : ℕ → ℚ) (pca : PcaModel) : ℕ → ℚ :=
  fun j => v j - pca.mean j

/-- `use = Math.min(k, pca.components.length)` in `projectVector`. -/
def useCount (pca : PcaModel) (k : ℕ) : ℕ :=
  min k pca.components.length

/-- `coeffs[i] = dot(centered, pca.components[i])` — entry `i` of the
array returned by `projectVector(vector, pca, k)` (meaningful for
`i < use`). -/
def projectCoeff (v : ℕ → ℚ) (pca : PcaModel) (i : ℕ) : ℚ :=
  dot (centered v pca) (pca.components.getD i (fun _ => 0))

/-- The accumulation loop of `reconstructVector` before clamping:
`out = [...pca.mean]`, then `out[j] += coeffs[i] * comp[j]` for every
`i < coeffs.length` and `j < DIM`. -/
def reconstructRaw (v : ℕ → ℚ) (pca : PcaModel) (k : ℕ) : ℕ → ℚ :=
  fun j => pca.mean j +
    ∑ i in Finset.range (useCount pca k),
      projectCoeff v pca i * pca.components.getD i (fun _ => 0) j

/-- The final `out.map(v => Math.max(0, Math.min(1, v)))` pixel clamp. -/
def clamp01 (v : ℚ) : ℚ := max 0 (min 1 v)

/-- `reconstructVector(vector, pca, k)`. -/
def reconstructVector (v : ℕ → ℚ) (pca : PcaModel) (k : ℕ) : ℕ → ℚ :=
  fun j => clamp01 (reconstructRaw v pca k j)

/-- `squaredDistance(a, b)` over length-`DIM` arrays. -/
def squaredDistance (a b : ℕ → ℚ) : ℚ :=
  ∑ j in Finset.range DIM, (a j - b j) * (a j - b j)

/-- Residual reconstruction error of a sample at rank `k` (squared
Euclidean distance between the sample and its clamped reconstruction). -/
def residualError (v : ℕ → ℚ) (pca : PcaModel) (k : ℕ) : ℚ :=
  squaredDistance v (reconstructVector v pca k)

/-- Residual error of the un-clamped reconstruction. -/
def residualRawError (v : ℕ → ℚ) (pca : PcaModel) (k : ℕ) : ℚ :=
  squaredDistance v (reconstructRaw v pca k)

/-- Modelled from the spec: the PCA fixture itself
(`public/data/pca-presets.json`) is generated from MNIST and is not in
the repository, so its contents are abstracted by what §4.4 and the
precompute guarantee — the saved `components` are top eigencomponents of
an SVD, i.e. pairwise orthonormal over the `DIM` pixel coordinates. -/
def Orthonormal (pca : PcaModel) : Prop :=
  ∀ i < pca.components.length, ∀ j < pca.components.length,
    dot (pca.components.getD i (fun _ => 0)) (pca.components.getD j (fun _ => 0)) =
      if i = j then 1 else 0

/-- Modelled from the spec: MNIST pixel vectors (test samples and the
train mean) have every pixel in `[0, 1]`. -/
def InUnitBox (v : ℕ → ℚ) : Prop :=
  ∀ j < DIM, 0 ≤ v j ∧ v j ≤ 1

/-! ### A concrete fixture-shaped instance (for C8)

Thirty orthonormal components over the 784 pixel coordinates: two
rotated vectors supported on pixels `{0, 1, 2}` placed at component
indices `0` and `6`, and twenty-eight standard basis vectors on pixels
`3..30`; the mean and the test sample are valid pixel vectors supported
on `{0, 1, 2}`. -/

/-- Rotated unit vector `(2/3, 2/3, 1/3, 0, …)` (component index 0). -/
def cu1 : ℕ → ℚ :=
  fun j => if j = 0 then 2/3 else if j = 1 then 2/3 else if j = 2 then 1/3 else 0

/-- Rotated unit vector `(-2/3, 1/3, 2/3, 0, …)` (component index 6). -/
def cu2 : ℕ → ℚ :=
  fun j => if j = 0 then -(2/3) else if j = 1 then 1/3 else if j = 2 then 2/3 else 0

/-- Standard basis vector at pixel `t`. -/
def unitVec (t : ℕ) : ℕ → ℚ :=
  fun j => if j = t then 1 else 0

/-- Component `i` of the concrete model: `cu1` at index 0, `cu2` at
index 6, standard basis vectors on pixels `3..30` elsewhere. -/
def cComp (i : ℕ) : ℕ → ℚ :=
  if i = 0 then cu1 else if i = 6 then cu2 else if i < 6 then unitVec (i + 2)
  else unitVec (i + 1)

/-- The concrete 30-component model; its mean is the pixel vector
`(0, 0, 1, 0, …)`. -/
def cPca : PcaModel :=
  { mean := fun j => if j = 2 then 1 else 0,
    components := (List.range 30).map cComp }

/-- The concrete test sample `(1/4, 1, 1/4, 0, …)`. -/
def cSample : ℕ → ℚ :=
  fun j => if j = 0 then 1/4 else if j = 1 then 1 else if j = 2 then 1/4 else 0

end PCA

/-! ## Claim theorems -/

/-- C1, counterexample: the claim says every manual transport action —
step, scrub or reset — sets the playing flag to false, but the Reset
button of `GradientDescentViz` (and of `LLMViz`) only repositions the
cursor, and the Prev/Next buttons of `LLMFlowViz` never touch `playing`:
from a playing state, these actions leave `playing = true`. -/
theorem C1_reset_keeps_playing_counterexample :
    (gdReset { isPlaying := true, visibleStep := 5 }).isPlaying = true ∧
    (llmReset { playing := true, contextLen := 7 }).playing = true ∧
    (flowNext { playing := true, active := 2 }).playing = true ∧
    (flowPrev { playing := true, active := 2 }).playing = true := by
  refine ⟨rfl, rfl, rfl, rfl⟩

/-- C1, amended: the step and scrub handlers of `GradientDescentViz` and
`LLMViz` do set the playing flag to false, while the Reset handlers of
those two visualizers and the Prev/Next handlers of `LLMFlowViz` leave
the playing flag unchanged and only reposition the cursor. -/
theorem C1_manual_transport_pause :
    (∀ s, (gdPrevStep s).isPlaying = false) ∧
    (∀ pathLen s, (gdNextStep pathLen s).isPlaying = false) ∧
    (∀ v s, (gdScrub v s).isPlaying = false) ∧
    (∀ s, (llmPrevToken s).playing = false) ∧
    (∀ s, (llmNextToken s).playing = false) ∧
    (∀ v s, (llmScrub v s).playing = false) ∧
    (∀ s, (gdReset s).isPlaying = s.isPlaying ∧ (gdReset s).visibleStep = 0) ∧
    (∀ s, (llmReset s).playing = s.playing ∧ (llmReset s).contextLen = 4) ∧
    (∀ s, (flowPrev s).playing = s.playing) ∧
    (∀ s, (flowNext s).playing = s.playing) := by
  exact ⟨fun _ => rfl, fun _ _ => rfl, fun _ _ => rfl, fun _ => rfl, fun _ => rfl,
    fun _ _ => rfl, fun _ => ⟨rfl, rfl⟩, fun _ => ⟨rfl, rfl⟩, fun _ => rfl, fun _ => rfl⟩

/-- C2: the fixture loader returns the cache when set (no fetch), joins
the in-flight request when one exists (so concurrent callers share one
network request), caches on success so later calls never re-fetch, and
clears only the in-flight marker on failure so the next call starts a
fresh fetch. -/
theorem C2_loader_caching :
    (∀ (A : Type) (s : LoaderState A) (a : A) (f : ℕ), s.cache = some a →
      load f s = (.cached a, s)) ∧
    (∀ (A : Type) (s : LoaderState A) (r f : ℕ), s.cache = none → s.inflight = some r →
      load f s = (.joined r, s)) ∧
    (∀ (A : Type) (f g : ℕ),
      load f ({ cache := none, inflight := none } : LoaderState A) =
        (.started f, { cache := none, inflight := some f }) ∧
      load g ({ cache := none, inflight := some f } : LoaderState A) =
        (.joined f, { cache := none, inflight := some f })) ∧
    (∀ (A : Type) (s : LoaderState A) (a : A),
      (settleSuccess a s).cache = some a ∧
      ∀ f, load f (settleSuccess a s) = (.cached a, settleSuccess a s)) ∧
    (∀ (A : Type) (s : LoaderState A),
      (settleFailure s).inflight = none ∧ (settleFailure s).cache = s.cache) ∧
    (∀ (A : Type) (r g : ℕ),
      load g (settleFailure ({ cache := none, inflight := some r } : LoaderState A)) =
        (.started g, { cache := none, inflight := some g })) := by
  refine ⟨?_, ?_, ?_, ?_, ?_, ?_⟩
  · intro A s a f h
    obtain ⟨c, inf⟩ := s
    simp only at h
    subst h
    rfl
  · intro A s r f hc hi
    obtain ⟨c, inf⟩ := s
    simp only at hc hi
    subst hc; subst hi
    rfl
  · intro A f g
    exact ⟨rfl, rfl⟩
  · intro A s a
    exact ⟨rfl, fun f => rfl⟩
  · intro A s
    exact ⟨rfl, rfl⟩
  · intro A r g
    rfl

/-- C2 witness: concrete runs of the loader — a cache hit, and a join of
an in-flight request. -/
theorem C2_loader_caching_witness :
    load 1 ({ cache := some 7, inflight := none } : LoaderState ℕ) =
      (.cached 7, { cache := some 7, inflight := none }) ∧
    load 2 ({ cache := none, inflight := some 5 } : LoaderState ℕ) =
      (.joined 5, { cache := none, inflight := some 5 }) :=
  ⟨C2_loader_caching.1 ℕ _ 7 1 rfl, C2_loader_caching.2.1 ℕ _ 5 2 rfl rfl⟩

/-- C3: one auto-play tick keeps the cursor inside its range — for
`GradientDescentViz` in `[0, path.length - 1]`, wrapping to `0` at the
upper bound; for `LLMViz` in `[4, TOKENS.length]`, wrapping to `4` at
the upper bound — never exceeding the bound and never going negative. -/
theorem C3_tick_wraps_in_range :
    (∀ pathLen s : ℤ, 1 ≤ pathLen → 0 ≤ s → s ≤ pathLen - 1 →
      0 ≤ gdTick pathLen s ∧ gdTick pathLen s ≤ pathLen - 1 ∧
      (s = pathLen - 1 → gdTick pathLen s = 0)) ∧
    (∀ v : ℤ, 4 ≤ v → v ≤ llmTokensLen →
      0 ≤ llmTick v ∧ 4 ≤ llmTick v ∧ llmTick v ≤ llmTokensLen ∧
      (v = llmTokensLen → llmTick v = 4)) := by
  constructor
  · intro pathLen s h1 h2 h3
    simp only [gdTick]
    split_ifs with h <;> omega
  · intro v h1 h2
    simp only [llmTick, llmTokensLen] at *
    split_ifs with h <;> omega

/-- C3 witness: a 29-point path wraps from step 28 to 0; the context
length wraps from 9 to 4. -/
theorem C3_tick_wraps_in_range_witness :
    (0 ≤ gdTick 29 28 ∧ gdTick 29 28 ≤ 29 - 1 ∧ ((28 : ℤ) = 29 - 1 → gdTick 29 28 = 0)) ∧
    (0 ≤ llmTick 9 ∧ 4 ≤ llmTick 9 ∧ llmTick 9 ≤ llmTokensLen ∧
      ((9 : ℤ) = llmTokensLen → llmTick 9 = 4)) :=
  ⟨C3_tick_wraps_in_range.1 29 28 (by norm_num) (by norm_num) (by norm_num),
   C3_tick_wraps_in_range.2 9 (by norm_num) (by decide)⟩

/-- C4: in `renderMatrix`, every cell with column `c > r` (a relation to
a future position) is rendered with the dedicated mask class and without
any value-derived background, every causal cell does carry the
value-derived background, and the merged attention row is exactly `0` at
every position after the query index. -/
theorem C4_future_cells_masked :
    (∀ (queryIdx r c : ℕ) (v : ℚ), c > r →
      (renderCell queryIdx r c v).className = "llm-cell llm-cell-mask" ∧
      (renderCell queryIdx r c v).background = none) ∧
    (∀ (queryIdx r c : ℕ) (v : ℚ), c ≤ r →
      (renderCell queryIdx r c v).background = some (0.08 + v * 0.92)) ∧
    (∀ (blend : ℚ) (n qi k : ℕ), qi < k → k < n →
      (LLM.mergedRow blend n qi).getD k 0 = 0) := by
  refine ⟨?_, ?_, ?_⟩
  · intro queryIdx r c v h
    simp [renderCell, h]
  · intro queryIdx r c v h
    simp [renderCell, Nat.not_lt.mpr h]
  · intro blend n qi k h hk
    have hlen : k < (LLM.mergedRow blend n qi).length := by
      simpa [LLM.mergedRow] using hk
    rw [List.getD_eq_getElem _ _ hlen]
    simp [LLM.mergedRow, Nat.not_le.mpr h]

/-- C4 witness: a concrete masked cell, a concrete causal cell, and a
concrete post-query zero of the merged row. -/
theorem C4_future_cells_masked_witness :
    ((renderCell 3 1 2 (1/2)).className = "llm-cell llm-cell-mask" ∧
      (renderCell 3 1 2 (1/2)).background = none) ∧
    (renderCell 3 2 1 (1/2)).background = some (0.08 + (1/2) * 0.92) ∧
    (LLM.mergedRow (1/2) 7 4).getD 6 0 = 0 :=
  ⟨C4_future_cells_masked.1 3 1 2 (1/2) (by norm_num),
   C4_future_cells_masked.2.1 3 2 1 (1/2) (by norm_num),
   C4_future_cells_masked.2.2 (1/2) 7 4 6 (by norm_num) (by norm_num)⟩

/-- C7: the tab-resolution function always returns a member of the
concept-id enum, absent or unrecognized `tab` values resolve to the
default `svd`, an invalid value is replaced in the URL on mount without
adding a history entry, and a user tab change pushes a new entry. -/
theorem C7_tab_resolution :
    (∀ value : Option String, getTabFromUrl value ∈ conceptIds) ∧
    (getTabFromUrl none = "svd" ∧ getTabFromUrl (some "bogus") = "svd") ∧
    (∀ active raw rest, isConceptId raw = false →
      mountSyncUrl active (raw :: rest) = some active :: rest) ∧
    (∀ active hist, hist ≠ [] → (mountSyncUrl active hist).length = hist.length) ∧
    (∀ tab active hist, tab ≠ active →
      (changeTab tab active hist).1 = tab ∧
      ((changeTab tab active hist).2).length = hist.length + 1) := by
  refine ⟨?_, ⟨by decide, by decide⟩, ?_, ?_, ?_⟩
  · intro value
    unfold getTabFromUrl
    split_ifs with h
    · match value with
      | none => simp [isConceptId] at h
      | some v =>
        simp only [isConceptId] at h
        split_ifs at h
        simp only [Option.getD_some]
        simpa [List.contains] using h
    · decide
  · intro active raw rest h
    simp [mountSyncUrl, updateUrlTab, h]
  · intro active hist hne
    unfold mountSyncUrl
    split_ifs with h
    · rfl
    · match hist with
      | [] => exact absurd rfl hne
      | x :: xs => simp [updateUrlTab]
  · intro tab active hist h
    simp [changeTab, updateUrlTab, h]

/-- C7 witness: an invalid `tab=bogus` URL is replaced by the default on
mount without growing the history, and a user change to `pca` pushes one
entry. -/
theorem C7_tab_resolution_witness :
    mountSyncUrl "svd" (some "bogus" :: []) = some "svd" :: [] ∧
    (mountSyncUrl "svd" ([none] : List (Option String))).length =
      ([none] : List (Option String)).length ∧
    (changeTab "pca" "svd" [some "svd"]).1 = "pca" ∧
    ((changeTab "pca" "svd" [some "svd"]).2).length = [some "svd"].length + 1 :=
  ⟨C7_tab_resolution.2.2.1 "svd" (some "bogus") [] (by decide),
   C7_tab_resolution.2.2.2.1 "svd" ([none] : List (Option String)) (by decide),
   (C7_tab_resolution.2.2.2.2 "pca" "svd" [some "svd"] (by decide)).1,
   (C7_tab_resolution.2.2.2.2 "pca" "svd" [some "svd"] (by decide)).2⟩

/-- C10: the PCA panel clamps the selected sample index to the fixture's
sample count before indexing, so for a non-empty fixture and any
non-negative slider value the indexed accesses into `testVectors`,
`testLabels` and `reconstructions[preset]` are all in bounds. -/
theorem C10_selected_index_in_bounds :
    ∀ (d : PcaFixture) (sampleIndex : ℤ) (preset : PresetKey),
      0 < sampleCount d → 0 ≤ sampleIndex →
      d.testLabels.length = sampleCount d →
      (d.reconstructions preset).length = sampleCount d →
      0 ≤ selectedIndex sampleIndex d ∧
      (selectedIndex sampleIndex d).toNat < d.testVectors.length ∧
      (selectedIndex sampleIndex d).toNat < d.testLabels.length ∧
      (selectedIndex sampleIndex d).toNat < (d.reconstructions preset).length := by
  intro d si preset h1 h2 h3 h4
  unfold selectedIndex sampleCount at *
  rcases le_total si ((d.testVectors.length : ℤ) - 1) with h | h
  · rw [min_eq_left h]
    omega
  · rw [min_eq_right h]
    omega

/-- C10 witness: a one-sample fixture with the slider stuck at 7 still
indexes sample 0. -/
theorem C10_selected_index_in_bounds_witness :
    0 ≤ selectedIndex 7 ⟨[[0]], [5], fun _ => [[0]]⟩ ∧
    (selectedIndex 7 ⟨[[0]], [5], fun _ => [[0]]⟩).toNat <
      (⟨[[0]], [5], fun _ => [[0]]⟩ : PcaFixture).testVectors.length ∧
    (selectedIndex 7 ⟨[[0]], [5], fun _ => [[0]]⟩).toNat <
      (⟨[[0]], [5], fun _ => [[0]]⟩ : PcaFixture).testLabels.length ∧
    (selectedIndex 7 ⟨[[0]], [5], fun _ => [[0]]⟩).toNat <
      ((⟨[[0]], [5], fun _ => [[0]]⟩ : PcaFixture).reconstructions .p6).length :=
  C10_selected_index_in_bounds ⟨[[0]], [5], fun _ => [[0]]⟩ 7 .p6
    (by decide) (by decide) (by decide) (by decide)

/-- C9, counterexample: the claim says `conv2d` preserves the dimensions
of every rectangular input, but the output is always
`image.length × image.length`: on the 2×3 image `[[1,2,3],[4,5,6]]` with
the 1×1 kernel `[[1]]` the first output row has 2 cells, not 3. -/
theorem C9_conv2d_counterexample :
    ((CNN.conv2d [[1, 2, 3], [4, 5, 6]] [[1]]).headD []).length = 2 ∧
    (([[1, 2, 3], [4, 5, 6]] : List (List ℚ)).headD []).length = 3 := by
  constructor
  · simp [CNN.conv2d]
  · rfl

/-- C9, amended: for a square image (every row as long as the column of
rows) `conv2d` returns a matrix of the same dimensions; every entry is
the absolute value of the windowed sum and hence non-negative; and the
guarded pixel read returns 0 for every out-of-bounds coordinate, so
out-of-bounds pixels contribute zero padding. -/
theorem C9_conv2d_amended :
    (∀ image kernel : List (List ℚ), (∀ row ∈ image, row.length = image.length) →
      (CNN.conv2d image kernel).length = image.length ∧
      ∀ row ∈ CNN.conv2d image kernel, row.length = image.length) ∧
    (∀ image kernel : List (List ℚ), ∀ row ∈ CNN.conv2d image kernel, ∀ v ∈ row, 0 ≤ v) ∧
    (∀ (image : List (List ℚ)) (iy ix : ℤ),
      ¬(0 ≤ iy ∧ iy < (image.length : ℤ) ∧ 0 ≤ ix ∧ ix < (((image.headD []).length : ℕ) : ℤ)) →
      CNN.pixelAt image iy ix = 0) := by
  refine ⟨?_, ?_, ?_⟩
  · intro image kernel _hsq
    constructor
    · simp [CNN.conv2d]
    · intro row hrow
      rcases (List.mem_ofFn _ _).mp hrow with ⟨y, hy⟩
      simp [← hy]
  · intro image kernel row hrow v hv
    rcases (List.mem_ofFn _ _).mp hrow with ⟨y, hy⟩
    rw [← hy] at hv
    rcases (List.mem_ofFn _ _).mp hv with ⟨x, hx⟩
    rw [← hx]
    exact abs_nonneg _
  · intro image iy ix h
    simp only [CNN.pixelAt]
    rw [if_neg]
    exact_mod_cast h

/-- C9 witness: a 2×2 image keeps its dimensions, and a read above the
top edge is zero-padded. -/
theorem C9_conv2d_amended_witness :
    ((CNN.conv2d [[1, 2], [3, 4]] [[1]]).length = 2 ∧
      ∀ row ∈ CNN.conv2d [[1, 2], [3, 4]] [[1]], row.length = 2) ∧
    CNN.pixelAt [[1, 2], [3, 4]] (-1) 0 = 0 :=
  ⟨C9_conv2d_amended.1 [[1, 2], [3, 4]] [[1]] (by decide),
   C9_conv2d_amended.2.2 [[1, 2], [3, 4]] (-1) 0 (by decide)⟩

/-! ### Helper lemmas for the attention-row distributions (C5, C6) -/

/-- Sum of a list after dividing every entry by a constant. -/
theorem list_sum_map_div {K : Type} [DivisionRing K] (l : List K) (c : K) :
    (l.map (fun v => v / c)).sum = l.sum / c := by
  induction l with
  | nil => simp
  | cons x xs ih => simp [ih, add_div]

/-- When the row sum is nonzero, `normalize` divides by exactly that sum,
so the normalized row sums to 1. -/
theorem LLM.normalize_sum (l : List ℚ) (h : l.sum ≠ 0) : (LLM.normalize l).sum = 1 := by
  unfold LLM.normalize LLM.normalizeDenom
  rw [if_neg h, list_sum_map_div, div_self h]

/-- Entry-wise description of `normalize`. -/
theorem LLM.normalize_getD (l : List ℚ) (k : ℕ) (hk : k < l.length) :
    (LLM.normalize l).getD k 0 = l.getD k 0 / LLM.normalizeDenom l := by
  have h1 : k < (LLM.normalize l).length := by simpa [LLM.normalize] using hk
  rw [List.getD_eq_getElem _ _ h1, List.getD_eq_getElem _ _ hk]
  simp [LLM.normalize]

/-- The role-dependent additions of `head1Row` are all non-negative. -/
theorem LLM.head1Extra_nonneg (qi k : ℕ) : 0 ≤ LLM.head1Extra qi k := by
  unfold LLM.head1Extra
  repeat' split
  all_goals norm_num

/-- Every un-normalized `head1Row` cell is strictly positive (the `0.02`
fill plus non-negative additions plus a positive recency bonus). -/
theorem LLM.head1Base_pos (qi k : ℕ) : 0 < LLM.head1Base qi k := by
  unfold LLM.head1Base
  have h1 := LLM.head1Extra_nonneg qi k
  have h2 : (0 : ℚ) < 0.15 / (((qi - k : ℕ) : ℚ) + 1) := by positivity
  linarith

/-- Every un-normalized `head2Row` cell is strictly positive. -/
theorem LLM.head2Base_pos (qi k : ℕ) : 0 < LLM.head2Base qi k := by
  unfold LLM.head2Base
  split_ifs <;> positivity

/-- A list built from positive values has a positive sum. -/
theorem ofFn_sum_pos {n : ℕ} (f : Fin n → ℚ) (hf : ∀ i, 0 < f i) (hn : 0 < n) :
    0 < (List.ofFn f).sum := by
  apply List.sum_pos
  · intro x hx
    rcases (List.mem_ofFn _ _).mp hx with ⟨i, rfl⟩
    exact hf i
  · intro h
    have := congrArg List.length h
    simp at this
    omega

/-- The `head1Row` distribution sums to exactly 1. -/
theorem LLM.head1Row_sum (qi : ℕ) : (LLM.head1Row qi).sum = 1 :=
  LLM.normalize_sum _
    (ne_of_gt (ofFn_sum_pos _ (fun i => LLM.head1Base_pos qi i) (Nat.succ_pos qi)))

/-- The `head2Row` distribution sums to exactly 1. -/
theorem LLM.head2Row_sum (qi : ℕ) : (LLM.head2Row qi).sum = 1 :=
  LLM.normalize_sum _
    (ne_of_gt (ofFn_sum_pos _ (fun i => LLM.head2Base_pos qi i) (Nat.succ_pos qi)))

/-- Every `head1Row` entry is strictly positive. -/
theorem LLM.head1Row_getD_pos (qi k : ℕ) (hk : k < qi + 1) :
    0 < (LLM.head1Row qi).getD k 0 := by
  unfold LLM.head1Row
  rw [LLM.normalize_getD _ _ (by simpa using hk)]
  have hpos : 0 < (List.ofFn fun i : Fin (qi + 1) => LLM.head1Base qi i).sum :=
    ofFn_sum_pos _ (fun i => LLM.head1Base_pos qi i) (Nat.succ_pos qi)
  have hden : LLM.normalizeDenom (List.ofFn fun i : Fin (qi + 1) => LLM.head1Base qi i) =
      (List.ofFn fun i : Fin (qi + 1) => LLM.head1Base qi i).sum := by
    unfold LLM.normalizeDenom
    rw [if_neg (ne_of_gt hpos)]
  rw [hden]
  apply div_pos _ hpos
  have hk2 : k < (List.ofFn fun i : Fin (qi + 1) => LLM.head1Base qi i).length := by
    simpa using hk
  rw [List.getD_eq_getElem _ _ hk2, List.getElem_ofFn]
  exact LLM.head1Base_pos qi k

/-- Every `head2Row` entry is strictly positive. -/
theorem LLM.head2Row_getD_pos (qi k : ℕ) (hk : k < qi + 1) :
    0 < (LLM.head2Row qi).getD k 0 := by
  unfold LLM.head2Row
  rw [LLM.normalize_getD _ _ (by simpa using hk)]
  have hpos : 0 < (List.ofFn fun i : Fin (qi + 1) => LLM.head2Base qi i).sum :=
    ofFn_sum_pos _ (fun i => LLM.head2Base_pos qi i) (Nat.succ_pos qi)
  have hden : LLM.normalizeDenom (List.ofFn fun i : Fin (qi + 1) => LLM.head2Base qi i) =
      (List.ofFn fun i : Fin (qi + 1) => LLM.head2Base qi i).sum := by
    unfold LLM.normalizeDenom
    rw [if_neg (ne_of_gt hpos)]
  rw [hden]
  apply div_pos _ hpos
  have hk2 : k < (List.ofFn fun i : Fin (qi + 1) => LLM.head2Base qi i).length := by
    simpa using hk
  rw [List.getD_eq_getElem _ _ hk2, List.getElem_ofFn]
  exact LLM.head2Base_pos qi k

/-- Entry-wise description of `rowToSquare`. -/
theorem LLM.rowToSquare_getD (row : List ℚ) (n k : ℕ) (hk : k < n) :
    (LLM.rowToSquare row n).getD k 0 =
      if k ≤ row.length - 1 then row.getD k 0 else 0 := by
  have h1 : k < (LLM.rowToSquare row n).length := by simpa [LLM.rowToSquare] using hk
  rw [List.getD_eq_getElem _ _ h1]
  simp [LLM.rowToSquare]

/-- A convex combination of two positive values is positive. -/
theorem convex_pos {t a b : ℚ} (ht0 : 0 ≤ t) (ht1 : t ≤ 1) (ha : 0 < a) (hb : 0 < b) :
    0 < t * a + (1 - t) * b := by
  rcases eq_or_lt_of_le ht0 with h | h
  · rw [← h]
    linarith
  · have h1 : 0 < t * a := mul_pos h ha
    have h2 : 0 ≤ (1 - t) * b := mul_nonneg (by linarith) hb.le
    linarith

/-- Before renormalization, every causal cell of the merged row is
strictly positive for a blend in `[0, 1]`. -/
theorem LLM.mergedRaw_pos (blend : ℚ) (n qi k : ℕ) (hb0 : 0 ≤ blend) (hb1 : blend ≤ 1)
    (hk : k ≤ qi) (hqn : qi < n) : 0 < LLM.mergedRaw blend n qi k := by
  unfold LLM.mergedRaw
  have hkn : k < n := lt_of_le_of_lt hk hqn
  have hlen1 : (LLM.head1Row qi).length = qi + 1 := by simp [LLM.head1Row, LLM.normalize]
  have hlen2 : (LLM.head2Row qi).length = qi + 1 := by simp [LLM.head2Row, LLM.normalize]
  rw [LLM.rowToSquare_getD _ _ _ hkn, LLM.rowToSquare_getD _ _ _ hkn, hlen1, hlen2]
  rw [if_pos (by omega : k ≤ qi + 1 - 1), if_pos (by omega : k ≤ qi + 1 - 1)]
  exact convex_pos hb0 hb1 (LLM.head1Row_getD_pos qi k (by omega))
    (LLM.head2Row_getD_pos qi k (by omega))

/-- Entry-wise description of the merged row. -/
theorem LLM.mergedRow_getD (blend : ℚ) (n qi k : ℕ) (hk : k < n) :
    (LLM.mergedRow blend n qi).getD k 0 =
      if k ≤ qi then LLM.mergedRaw blend n qi k / LLM.mergedDenom blend n qi else 0 := by
  have h1 : k < (LLM.mergedRow blend n qi).length := by simpa [LLM.mergedRow] using hk
  rw [List.getD_eq_getElem _ _ h1]
  simp [LLM.mergedRow]

/-- The merged row, renormalized over its causal cells, sums to exactly 1
over those cells for any blend in `[0, 1]`. -/
theorem LLM.mergedRow_sum_one (blend : ℚ) (n qi : ℕ) (hb0 : 0 ≤ blend) (hb1 : blend ≤ 1)
    (hqn : qi < n) :
    (∑ k in Finset.range (qi + 1), (LLM.mergedRow blend n qi).getD k 0) = 1 := by
  have hS : 0 < ∑ k in Finset.range (qi + 1), LLM.mergedRaw blend n qi k := by
    apply Finset.sum_pos
    · intro k hkmem
      exact LLM.mergedRaw_pos blend n qi k hb0 hb1 (by
        have := Finset.mem_range.mp hkmem
        omega) hqn
    · exact ⟨0, Finset.mem_range.mpr (Nat.succ_pos qi)⟩
  have hden : LLM.mergedDenom blend n qi = ∑ k in Finset.range (qi + 1), LLM.mergedRaw blend n qi k := by
    unfold LLM.mergedDenom
    rw [if_neg (ne_of_gt hS)]
  have hstep : ∀ k ∈ Finset.range (qi + 1),
      (LLM.mergedRow blend n qi).getD k 0 =
        LLM.mergedRaw blend n qi k / LLM.mergedDenom blend n qi := by
    intro k hkmem
    have hkq : k ≤ qi := by
      have := Finset.mem_range.mp hkmem
      omega
    rw [LLM.mergedRow_getD blend n qi k (lt_of_le_of_lt hkq hqn), if_pos hkq]
  rw [Finset.sum_congr rfl hstep, ← Finset.sum_div, hden, div_self (ne_of_gt hS)]

/-- The fold underlying JS `Math.max(...)` yields an element of the list. -/
theorem foldl_max_mem (x : ℝ) (xs : List ℝ) : xs.foldl max x ∈ x :: xs := by
  induction xs generalizing x with
  | nil => simp
  | cons y ys ih =>
    simp only [List.foldl_cons]
    have h := ih (max x y)
    rcases List.mem_cons.mp h with h1 | h1
    · rcases max_choice x y with hc | hc
      · rw [h1, hc]
        exact List.mem_cons_self _ _
      · rw [h1, hc]
        exact List.mem_cons_of_mem _ (List.mem_cons_self _ _)
    · exact List.mem_cons_of_mem _ (List.mem_cons_of_mem _ h1)

/-- `maxList` of a non-empty list is one of its entries. -/
theorem LLM.maxList_mem (l : List ℝ) (h : l ≠ []) : LLM.maxList l ∈ l := by
  match l with
  | [] => exact absurd rfl h
  | x :: xs => exact foldl_max_mem x xs

/-- The softmax `exps` sum is at least 1: the maximal scaled logit
contributes `exp 0 = 1` and all other terms are non-negative. -/
theorem LLM.one_le_softmaxExps_sum (values : List ℝ) (temperature : ℝ) (h : values ≠ []) :
    1 ≤ (LLM.softmaxExps values temperature).sum := by
  have hscaled : LLM.scaledLogits values temperature ≠ [] := by
    simp [LLM.scaledLogits, h]
  have hmem : LLM.maxList (LLM.scaledLogits values temperature) ∈
      LLM.scaledLogits values temperature := LLM.maxList_mem _ hscaled
  have hone : (1 : ℝ) ∈ LLM.softmaxExps values temperature := by
    unfold LLM.softmaxExps
    have := List.mem_map_of_mem
      (fun v => Real.exp (v - LLM.maxList (LLM.scaledLogits values temperature))) hmem
    simpa [sub_self, Real.exp_zero] using this
  apply List.single_le_sum _ _ hone
  intro x hx
  unfold LLM.softmaxExps at hx
  rcases List.mem_map.mp hx with ⟨v, _, rfl⟩
  exact (Real.exp_pos _).le

/-- The softmax distribution sums to `s / (s + 1e-9)` and is therefore
within `1e-9` of 1 whenever the logit list is non-empty. -/
theorem LLM.softmax_sum_close (values : List ℝ) (temperature : ℝ) (h : values ≠ []) :
    |(LLM.softmax values temperature).sum - 1| ≤ 1e-6 := by
  unfold LLM.softmax
  rw [list_sum_map_div]
  set s := (LLM.softmaxExps values temperature).sum with hs
  have h1 : 1 ≤ s := LLM.one_le_softmaxExps_sum values temperature h
  have hden : (0 : ℝ) < s + 1e-9 := by
    have : (0 : ℝ) < 1e-9 := by norm_num
    linarith
  have hrw : s / (LLM.softmaxDenom values temperature) - 1 = -((1e-9) / (s + 1e-9)) := by
    unfold LLM.softmaxDenom
    rw [← hs]
    field_simp
  rw [hrw, abs_neg, abs_of_pos (div_pos (by norm_num) hden)]
  rw [div_le_iff₀ hden]
  nlinarith

/-- C5: every normalized distribution of the attention visualizer sums to
1 within `1e-6` over its valid prefix — the `normalize`d head rows sum to
exactly 1, the blended merged row renormalized over its unmasked cells
sums to exactly 1 for every blend in `[0,1]` and context length in range,
and the next-token softmax sums to within `1e-9 ≤ 1e-6` of 1 for every
temperature. -/
theorem C5_distributions_sum_to_one :
    (∀ qi : ℕ, |(LLM.head1Row qi).sum - 1| ≤ 1e-6 ∧ |(LLM.head2Row qi).sum - 1| ≤ 1e-6) ∧
    (∀ (blend : ℚ) (n qi : ℕ), 0 ≤ blend → blend ≤ 1 → 4 ≤ n → n ≤ 9 → qi < n →
      |(∑ k in Finset.range (qi + 1), (LLM.mergedRow blend n qi).getD k 0) - 1| ≤ 1e-6) ∧
    (∀ (values : List ℝ) (temperature : ℝ), values ≠ [] →
      |(LLM.softmax values temperature).sum - 1| ≤ 1e-6) := by
  refine ⟨?_, ?_, ?_⟩
  · intro qi
    rw [LLM.head1Row_sum, LLM.head2Row_sum]
    norm_num
  · intro blend n qi hb0 hb1 _hn4 _hn9 hqn
    rw [LLM.mergedRow_sum_one blend n qi hb0 hb1 hqn]
    norm_num
  · exact LLM.softmax_sum_close

/-- C5 witness: the distributions at concrete in-range parameters. -/
theorem C5_distributions_sum_to_one_witness :
    (|(LLM.head1Row 6).sum - 1| ≤ 1e-6 ∧ |(LLM.head2Row 6).sum - 1| ≤ 1e-6) ∧
    |(∑ k in Finset.range (6 + 1), (LLM.mergedRow (1/2) 7 6).getD k 0) - 1| ≤ 1e-6 ∧
    |(LLM.softmax [1, 2, 3, 4, 5] 1).sum - 1| ≤ 1e-6 :=
  ⟨C5_distributions_sum_to_one.1 6,
   C5_distributions_sum_to_one.2.1 (1/2) 7 6 (by norm_num) (by norm_num) (by norm_num)
     (by norm_num) (by norm_num),
   C5_distributions_sum_to_one.2.2 [1, 2, 3, 4, 5] 1 (by simp)⟩

/-- C6: every normalization in the visualizers guards its denominator —
`normalize` substitutes 1 for a zero sum so its denominator is never
zero, the attention softmax floors its temperature at `0.05 > 0` and its
denominator `s + 1e-9` is strictly positive, and the RNN softmax
denominator is strictly positive as well; over the real-number model of
JS floats this is exactly what rules out a NaN/Infinity from a zero
denominator. -/
theorem C6_denominators_guarded :
    (∀ values : List ℚ, LLM.normalizeDenom values ≠ 0) ∧
    (∀ temperature : ℝ, 0.05 ≤ LLM.softmaxTemp temperature ∧ 0 < LLM.softmaxTemp temperature) ∧
    (∀ (values : List ℝ) (temperature : ℝ), 0 < LLM.softmaxDenom values temperature) ∧
    (∀ values : List ℝ, 0 < RNN.softmaxDenom values) := by
  refine ⟨?_, ?_, ?_, ?_⟩
  · intro values
    unfold LLM.normalizeDenom
    split_ifs with h
    · exact one_ne_zero
    · exact h
  · intro temperature
    refine ⟨le_max_left _ _, lt_of_lt_of_le (by norm_num) (le_max_left _ _)⟩
  · intro values temperature
    unfold LLM.softmaxDenom
    have h1 : 0 ≤ (LLM.softmaxExps values temperature).sum := by
      apply List.sum_nonneg
      intro x hx
      rcases List.mem_map.mp hx with ⟨v, _, rfl⟩
      exact (Real.exp_pos _).le
    have : (0 : ℝ) < 1e-9 := by norm_num
    linarith
  · intro values
    unfold RNN.softmaxDenom
    have h1 : 0 ≤ (RNN.softmaxExps values).sum := by
      apply List.sum_nonneg
      intro x hx
      rcases List.mem_map.mp hx with ⟨v, _, rfl⟩
      exact (Real.exp_pos _).le
    have : (0 : ℝ) < 1e-9 := by norm_num
    linarith

/-! ### Helper lemmas for the PCA reconstruction claims (C8) -/

/-- The pixel dimension is 784. -/
theorem PCA.DIM_eq : PCA.DIM = 784 := rfl

/-- A pixel-indexed sum collapses to its first three coordinates when the
summand vanishes from pixel 3 on. -/
theorem PCA.sum_DIM_support3 (g : ℕ → ℚ) (h : ∀ j, 3 ≤ j → g j = 0) :
    ∑ j in Finset.range PCA.DIM, g j = g 0 + g 1 + g 2 := by
  have hsub : Finset.range 3 ⊆ Finset.range PCA.DIM := by
    rw [PCA.DIM_eq]
    exact Finset.range_subset.mpr (by norm_num)
  rw [← Finset.sum_subset hsub (fun x _ hx => h x (by simpa using hx))]
  rw [Finset.sum_range_succ, Finset.sum_range_succ, Finset.sum_range_one]

/-- `cu1` is supported on pixels 0–2. -/
theorem PCA.cu1_eq_zero {t : ℕ} (ht : 3 ≤ t) : PCA.cu1 t = 0 := by
  unfold PCA.cu1
  rw [if_neg (by omega), if_neg (by omega), if_neg (by omega)]

/-- `cu2` is supported on pixels 0–2. -/
theorem PCA.cu2_eq_zero {t : ℕ} (ht : 3 ≤ t) : PCA.cu2 t = 0 := by
  unfold PCA.cu2
  rw [if_neg (by omega), if_neg (by omega), if_neg (by omega)]

/-- The concrete sample is supported on pixels 0–2. -/
theorem PCA.cSample_eq_zero {t : ℕ} (ht : 3 ≤ t) : PCA.cSample t = 0 := by
  unfold PCA.cSample
  rw [if_neg (by omega), if_neg (by omega), if_neg (by omega)]

/-- The concrete mean vanishes away from pixel 2. -/
theorem PCA.cMean_eq_zero {t : ℕ} (ht : t ≠ 2) : PCA.cPca.mean t = 0 := by
  show (if t = 2 then (1 : ℚ) else 0) = 0
  rw [if_neg ht]

/-- Dotting with a standard basis vector on the right picks one entry. -/
theorem PCA.dot_unitVec_right (a : ℕ → ℚ) (t : ℕ) (ht : t < PCA.DIM) :
    PCA.dot a (PCA.unitVec t) = a t := by
  unfold PCA.dot PCA.unitVec
  rw [Finset.sum_eq_single t]
  · rw [if_pos rfl, mul_one]
  · intro b _ hb
    rw [if_neg hb, mul_zero]
  · intro hmem
    exact absurd (Finset.mem_range.mpr ht) hmem

/-- Dotting with a standard basis vector on the left picks one entry. -/
theorem PCA.dot_unitVec_left (a : ℕ → ℚ) (t : ℕ) (ht : t < PCA.DIM) :
    PCA.dot (PCA.unitVec t) a = a t := by
  unfold PCA.dot PCA.unitVec
  rw [Finset.sum_eq_single t]
  · rw [if_pos rfl, one_mul]
  · intro b _ hb
    rw [if_neg hb, zero_mul]
  · intro hmem
    exact absurd (Finset.mem_range.mpr ht) hmem

/-- The two rotated components are unit vectors orthogonal to each other. -/
theorem PCA.dot_cu1_cu1 : PCA.dot PCA.cu1 PCA.cu1 = 1 := by
  unfold PCA.dot
  rw [PCA.sum_DIM_support3 _ (fun j hj => by rw [PCA.cu1_eq_zero hj, mul_zero])]
  norm_num [PCA.cu1]

/-- Orthogonality of the two rotated components. -/
theorem PCA.dot_cu1_cu2 : PCA.dot PCA.cu1 PCA.cu2 = 0 := by
  unfold PCA.dot
  rw [PCA.sum_DIM_support3 _ (fun j hj => by rw [PCA.cu2_eq_zero hj, mul_zero])]
  norm_num [PCA.cu1, PCA.cu2]

/-- Orthogonality, the other order. -/
theorem PCA.dot_cu2_cu1 : PCA.dot PCA.cu2 PCA.cu1 = 0 := by
  unfold PCA.dot
  rw [PCA.sum_DIM_support3 _ (fun j hj => by rw [PCA.cu1_eq_zero hj, mul_zero])]
  norm_num [PCA.cu1, PCA.cu2]

/-- The second rotated component is a unit vector. -/
theorem PCA.dot_cu2_cu2 : PCA.dot PCA.cu2 PCA.cu2 = 1 := by
  unfold PCA.dot
  rw [PCA.sum_DIM_support3 _ (fun j hj => by rw [PCA.cu2_eq_zero hj, mul_zero])]
  norm_num [PCA.cu2]

/-- The concrete component list has thirty entries. -/
theorem PCA.cComps_len : PCA.cPca.components.length = 30 := by
  show ((List.range 30).map PCA.cComp).length = 30
  simp

/-- Reading component `i` of the concrete model. -/
theorem PCA.cComps_getD {i : ℕ} (hi : i < 30) :
    PCA.cPca.components.getD i (fun _ => 0) = PCA.cComp i := by
  show ((List.range 30).map PCA.cComp).getD i (fun _ => 0) = PCA.cComp i
  have hlen : i < ((List.range 30).map PCA.cComp).length := by simpa using hi
  rw [List.getD_eq_getElem _ _ hlen]
  simp

/-- The concrete components are pairwise orthonormal. -/
theorem PCA.cPca_orthonormal : PCA.Orthonormal PCA.cPca := by
  intro i hi j hj
  rw [PCA.cComps_len] at hi hj
  rw [PCA.cComps_getD hi, PCA.cComps_getD hj]
  unfold PCA.cComp
  have hdim : ∀ t : ℕ, t < 31 → t < PCA.DIM := by
    intro t ht
    rw [PCA.DIM_eq]
    omega
  rcases eq_or_ne i 0 with hi0 | hi0
  · subst hi0
    rw [if_pos rfl]
    rcases eq_or_ne j 0 with hj0 | hj0
    · subst hj0
      rw [if_pos rfl, if_pos rfl]
      exact PCA.dot_cu1_cu1
    · rw [if_neg hj0, if_neg (by omega : ¬(0 = j))]
      rcases eq_or_ne j 6 with hj6 | hj6
      · subst hj6
        rw [if_pos rfl]
        exact PCA.dot_cu1_cu2
      · rw [if_neg hj6]
        rcases lt_or_ge j 6 with hjlt | hjge
        · rw [if_pos hjlt, PCA.dot_unitVec_right _ _ (hdim _ (by omega))]
          exact PCA.cu1_eq_zero (by omega)
        · rw [if_neg (by omega), PCA.dot_unitVec_right _ _ (hdim _ (by omega))]
          exact PCA.cu1_eq_zero (by omega)
  · rw [if_neg hi0]
    rcases eq_or_ne i 6 with hi6 | hi6
    · subst hi6
      rw [if_pos rfl]
      rcases eq_or_ne j 0 with hj0 | hj0
      · subst hj0
        rw [if_pos rfl, if_neg (by omega : ¬(6 = 0))]
        exact PCA.dot_cu2_cu1
      · rw [if_neg hj0]
        rcases eq_or_ne j 6 with hj6 | hj6
        · subst hj6
          rw [if_pos rfl, if_pos rfl]
          exact PCA.dot_cu2_cu2
        · rw [if_neg hj6, if_neg (by omega : ¬(6 = j))]
          rcases lt_or_ge j 6 with hjlt | hjge
          · rw [if_pos hjlt, PCA.dot_unitVec_right _ _ (hdim _ (by omega))]
            exact PCA.cu2_eq_zero (by omega)
          · rw [if_neg (by omega), PCA.dot_unitVec_right _ _ (hdim _ (by omega))]
            exact PCA.cu2_eq_zero (by omega)
    · rw [if_neg hi6]
      have hileft : (if i < 6 then PCA.unitVec (i + 2) else PCA.unitVec (i + 1)) =
          PCA.unitVec (if i < 6 then i + 2 else i + 1) := by
        split_ifs <;> rfl
      have hti : 3 ≤ (if i < 6 then i + 2 else i + 1) ∧ (if i < 6 then i + 2 else i + 1) < 31 := by
        split_ifs <;> omega
      rw [hileft]
      rcases eq_or_ne j 0 with hj0 | hj0
      · subst hj0
        rw [if_pos rfl, if_neg (by omega : ¬(i = 0)), PCA.dot_unitVec_left _ _ (hdim _ hti.2)]
        exact PCA.cu1_eq_zero hti.1
      · rw [if_neg hj0]
        rcases eq_or_ne j 6 with hj6 | hj6
        · subst hj6
          rw [if_pos rfl, if_neg (by omega : ¬(i = 6)), PCA.dot_unitVec_left _ _ (hdim _ hti.2)]
          exact PCA.cu2_eq_zero hti.1
        · rw [if_neg hj6]
          have hjleft : (if j < 6 then PCA.unitVec (j + 2) else PCA.unitVec (j + 1)) =
              PCA.unitVec (if j < 6 then j + 2 else j + 1) := by
            split_ifs <;> rfl
          rw [hjleft, PCA.dot_unitVec_left _ _ (hdim _ (by split_ifs <;> omega))]
          unfold PCA.unitVec
          have hiff : ((if i < 6 then i + 2 else i + 1) = (if j < 6 then j + 2 else j + 1)) ↔
              i = j := by
            split_ifs <;> omega
          rcases eq_or_ne i j with hij | hij
          · rw [if_pos (hiff.mpr hij), if_pos hij]
          · rw [if_neg (fun hcon => hij (hiff.mp hcon)), if_neg hij]

/-- Expansion of a squared residual against an orthonormal family:
subtracting the projection onto the first `L` components removes exactly
the sum of the squared coefficients. -/
theorem pythagoras_aux (δ : ℕ → ℚ) (u : ℕ → ℕ → ℚ) (c : ℕ → ℚ) (L D : ℕ)
    (hc : ∀ i, i < L → c i = ∑ j in Finset.range D, δ j * u i j)
    (horth : ∀ i < L, ∀ i2 < L,
      (∑ j in Finset.range D, u i j * u i2 j) = if i = i2 then 1 else 0) :
    ∑ j in Finset.range D, (δ j - ∑ i in Finset.range L, c i * u i j) *
        (δ j - ∑ i in Finset.range L, c i * u i j) =
      (∑ j in Finset.range D, δ j * δ j) - ∑ i in Finset.range L, c i * c i := by
  have hB : ∑ j in Finset.range D, δ j * (∑ i in Finset.range L, c i * u i j)
      = ∑ i in Finset.range L, c i * c i := by
    calc ∑ j in Finset.range D, δ j * (∑ i in Finset.range L, c i * u i j)
        = ∑ j in Finset.range D, ∑ i in Finset.range L, δ j * (c i * u i j) := by
          exact Finset.sum_congr rfl fun j _ => Finset.mul_sum _ _ _
      _ = ∑ i in Finset.range L, ∑ j in Finset.range D, δ j * (c i * u i j) :=
          Finset.sum_comm
      _ = ∑ i in Finset.range L, c i * ∑ j in Finset.range D, δ j * u i j := by
          refine Finset.sum_congr rfl fun i _ => ?_
          rw [Finset.mul_sum]
          exact Finset.sum_congr rfl fun j _ => by ring
      _ = ∑ i in Finset.range L, c i * c i := by
          refine Finset.sum_congr rfl fun i hi => ?_
          rw [← hc i (Finset.mem_range.mp hi)]
  have hC : ∑ j in Finset.range D,
        (∑ i in Finset.range L, c i * u i j) * (∑ i2 in Finset.range L, c i2 * u i2 j)
      = ∑ i in Finset.range L, c i * c i := by
    calc ∑ j in Finset.range D,
          (∑ i in Finset.range L, c i * u i j) * (∑ i2 in Finset.range L, c i2 * u i2 j)
        = ∑ j in Finset.range D, ∑ i in Finset.range L, ∑ i2 in Finset.range L,
            (c i * u i j) * (c i2 * u i2 j) := by
          exact Finset.sum_congr rfl fun j _ => Finset.sum_mul_sum _ _ _ _
      _ = ∑ i in Finset.range L, ∑ j in Finset.range D, ∑ i2 in Finset.range L,
            (c i * u i j) * (c i2 * u i2 j) := Finset.sum_comm
      _ = ∑ i in Finset.range L, ∑ i2 in Finset.range L, ∑ j in Finset.range D,
            (c i * u i j) * (c i2 * u i2 j) := by
          exact Finset.sum_congr rfl fun i _ => Finset.sum_comm
      _ = ∑ i in Finset.range L, ∑ i2 in Finset.range L,
            c i * c i2 * ∑ j in Finset.range D, u i j * u i2 j := by
          refine Finset.sum_congr rfl fun i _ => Finset.sum_congr rfl fun i2 _ => ?_
          rw [Finset.mul_sum]
          exact Finset.sum_congr rfl fun j _ => by ring
      _ = ∑ i in Finset.range L, ∑ i2 in Finset.range L,
            (if i = i2 then c i * c i2 else 0) := by
          refine Finset.sum_congr rfl fun i hi => Finset.sum_congr rfl fun i2 hi2 => ?_
          rw [horth i (Finset.mem_range.mp hi) i2 (Finset.mem_range.mp hi2)]
          split_ifs <;> ring
      _ = ∑ i in Finset.range L, c i * c i := by
          refine Finset.sum_congr rfl fun i hi => ?_
          rw [Finset.sum_ite_eq (Finset.range L) i (fun i2 => c i * c i2), if_pos hi]
  calc ∑ j in Finset.range D, (δ j - ∑ i in Finset.range L, c i * u i j) *
          (δ j - ∑ i in Finset.range L, c i * u i j)
      = ∑ j in Finset.range D, (δ j * δ j -
            2 * (δ j * ∑ i in Finset.range L, c i * u i j) +
            (∑ i in Finset.range L, c i * u i j) * (∑ i2 in Finset.range L, c i2 * u i2 j)) := by
        exact Finset.sum_congr rfl fun j _ => by ring
    _ = (∑ j in Finset.range D, δ j * δ j) -
          (∑ j in Finset.range D, 2 * (δ j * ∑ i in Finset.range L, c i * u i j)) +
          ∑ j in Finset.range D,
            (∑ i in Finset.range L, c i * u i j) * (∑ i2 in Finset.range L, c i2 * u i2 j) := by
        rw [Finset.sum_add_distrib, Finset.sum_sub_distrib]
    _ = (∑ j in Finset.range D, δ j * δ j) -
          2 * (∑ j in Finset.range D, δ j * ∑ i in Finset.range L, c i * u i j) +
          ∑ j in Finset.range D,
            (∑ i in Finset.range L, c i * u i j) * (∑ i2 in Finset.range L, c i2 * u i2 j) := by
        rw [Finset.mul_sum]
    _ = (∑ j in Finset.range D, δ j * δ j) - ∑ i in Finset.range L, c i * c i := by
        rw [hB, hC]
        ring

/-- For orthonormal components, the un-clamped residual error at rank `k`
is the full centered energy minus the sum of the squared coefficients. -/
theorem PCA.residualRawError_eq (v : ℕ → ℚ) (pca : PCA.PcaModel) (k : ℕ)
    (h : PCA.Orthonormal pca) :
    PCA.residualRawError v pca k =
      PCA.dot (PCA.centered v pca) (PCA.centered v pca) -
        ∑ i in Finset.range (PCA.useCount pca k), (PCA.projectCoeff v pca i) ^ 2 := by
  have hcoeff : ∀ i, i < PCA.useCount pca k →
      PCA.projectCoeff v pca i =
        ∑ j in Finset.range PCA.DIM,
          PCA.centered v pca j * pca.components.getD i (fun _ => 0) j :=
    fun i _ => rfl
  have horth : ∀ i < PCA.useCount pca k, ∀ i2 < PCA.useCount pca k,
      (∑ j in Finset.range PCA.DIM,
        pca.components.getD i (fun _ => 0) j * pca.components.getD i2 (fun _ => 0) j) =
        if i = i2 then 1 else 0 := by
    intro i hi i2 hi2
    exact h i (lt_of_lt_of_le hi (min_le_right _ _)) i2 (lt_of_lt_of_le hi2 (min_le_right _ _))
  have key := pythagoras_aux (PCA.centered v pca)
    (fun i => pca.components.getD i (fun _ => 0))
    (fun i => PCA.projectCoeff v pca i) (PCA.useCount pca k) PCA.DIM hcoeff horth
  have hpow : ∑ i in Finset.range (PCA.useCount pca k), (PCA.projectCoeff v pca i) ^ 2 =
      ∑ i in Finset.range (PCA.useCount pca k),
        PCA.projectCoeff v pca i * PCA.projectCoeff v pca i :=
    Finset.sum_congr rfl fun i _ => pow_two _
  rw [hpow]
  unfold PCA.residualRawError PCA.squaredDistance PCA.dot
  have hterm : ∀ j, v j - PCA.reconstructRaw v pca k j =
      PCA.centered v pca j - ∑ i in Finset.range (PCA.useCount pca k),
        PCA.projectCoeff v pca i * pca.components.getD i (fun _ => 0) j := by
    intro j
    unfold PCA.reconstructRaw PCA.centered
    ring
  calc ∑ j in Finset.range PCA.DIM,
        (v j - PCA.reconstructRaw v pca k j) * (v j - PCA.reconstructRaw v pca k j)
      = ∑ j in Finset.range PCA.DIM,
          (PCA.centered v pca j - ∑ i in Finset.range (PCA.useCount pca k),
            PCA.projectCoeff v pca i * pca.components.getD i (fun _ => 0) j) *
          (PCA.centered v pca j - ∑ i in Finset.range (PCA.useCount pca k),
            PCA.projectCoeff v pca i * pca.components.getD i (fun _ => 0) j) := by
        exact Finset.sum_congr rfl fun j _ => by rw [hterm j]
    _ = (∑ j in Finset.range PCA.DIM, PCA.centered v pca j * PCA.centered v pca j) -
          ∑ i in Finset.range (PCA.useCount pca k),
            PCA.projectCoeff v pca i * PCA.projectCoeff v pca i := key

/-- For orthonormal components the un-clamped residual error is
non-increasing in the rank. -/
theorem PCA.rawError_mono (v : ℕ → ℚ) (pca : PCA.PcaModel) (k1 k2 : ℕ)
    (h : PCA.Orthonormal pca) (hk : k1 ≤ k2) :
    PCA.residualRawError v pca k2 ≤ PCA.residualRawError v pca k1 := by
  rw [PCA.residualRawError_eq v pca k1 h, PCA.residualRawError_eq v pca k2 h]
  have hsub : Finset.range (PCA.useCount pca k1) ⊆ Finset.range (PCA.useCount pca k2) := by
    apply Finset.range_subset.mpr
    unfold PCA.useCount
    omega
  have hle := Finset.sum_le_sum_of_subset_of_nonneg hsub
    (fun i _ _ => sq_nonneg (PCA.projectCoeff v pca i))
  linarith

/-- Clamping a pixel to `[0, 1]` never moves it farther from a value
that is already in `[0, 1]`. -/
theorem PCA.clamp_sq_le (x t : ℚ) (h0 : 0 ≤ x) (h1 : x ≤ 1) :
    (x - PCA.clamp01 t) * (x - PCA.clamp01 t) ≤ (x - t) * (x - t) := by
  unfold PCA.clamp01
  rcases le_total t 0 with h | h
  · rw [min_eq_right (le_trans h zero_le_one), max_eq_left h]
    nlinarith
  · rcases le_total 1 t with h2 | h2
    · rw [min_eq_left h2, max_eq_right zero_le_one]
      nlinarith
    · rw [min_eq_right h2, max_eq_right h]

/-- Clamping the reconstruction to pixel range never increases the
residual error of an in-range sample. -/
theorem PCA.clampedError_le (v : ℕ → ℚ) (pca : PCA.PcaModel) (k : ℕ)
    (hbox : PCA.InUnitBox v) :
    PCA.residualError v pca k ≤ PCA.residualRawError v pca k := by
  unfold PCA.residualError PCA.residualRawError PCA.squaredDistance PCA.reconstructVector
  apply Finset.sum_le_sum
  intro j hj
  exact PCA.clamp_sq_le (v j) _ (hbox j (Finset.mem_range.mp hj)).1
    (hbox j (Finset.mem_range.mp hj)).2

/-- First coefficient of the concrete sample: the projection on `cu1`. -/
theorem PCA.coeff0 : PCA.projectCoeff PCA.cSample PCA.cPca 0 = 7/12 := by
  unfold PCA.projectCoeff
  rw [PCA.cComps_getD (by omega : (0 : ℕ) < 30),
    show PCA.cComp 0 = PCA.cu1 from rfl]
  unfold PCA.dot
  rw [PCA.sum_DIM_support3 _ (fun j hj => by rw [PCA.cu1_eq_zero hj, mul_zero])]
  norm_num [PCA.centered, PCA.cSample, PCA.cPca, PCA.cu1]

/-- Seventh coefficient of the concrete sample: the projection on `cu2`. -/
theorem PCA.coeff6 : PCA.projectCoeff PCA.cSample PCA.cPca 6 = -(1/3) := by
  unfold PCA.projectCoeff
  rw [PCA.cComps_getD (by omega : (6 : ℕ) < 30),
    show PCA.cComp 6 = PCA.cu2 from rfl]
  unfold PCA.dot
  rw [PCA.sum_DIM_support3 _ (fun j hj => by rw [PCA.cu2_eq_zero hj, mul_zero])]
  norm_num [PCA.centered, PCA.cSample, PCA.cPca, PCA.cu2]

/-- All other coefficients of the concrete sample vanish: the sample and
the mean agree (both are zero) on every standard-basis pixel. -/
theorem PCA.coeff_other (i : ℕ) (hi : i < 30) (h0 : i ≠ 0) (h6 : i ≠ 6) :
    PCA.projectCoeff PCA.cSample PCA.cPca i = 0 := by
  unfold PCA.projectCoeff
  rw [PCA.cComps_getD hi]
  unfold PCA.cComp
  rw [if_neg h0, if_neg h6]
  have hval : ∀ t : ℕ, 3 ≤ t → t < 31 →
      PCA.dot (PCA.centered PCA.cSample PCA.cPca) (PCA.unitVec t) = 0 := by
    intro t ht3 ht31
    rw [PCA.dot_unitVec_right _ _ (by rw [PCA.DIM_eq]; omega)]
    unfold PCA.centered
    rw [PCA.cSample_eq_zero ht3, PCA.cMean_eq_zero (by omega)]
    ring
  rcases lt_or_ge i 6 with hlt | hge
  · rw [if_pos hlt]
    exact hval (i + 2) (by omega) (by omega)
  · rw [if_neg (by omega)]
    exact hval (i + 1) (by omega) (by omega)

/-- The rank-6 raw reconstruction of the concrete sample. -/
theorem PCA.recon6_at (j : ℕ) : PCA.reconstructRaw PCA.cSample PCA.cPca 6 j =
    PCA.cPca.mean j + 7/12 * PCA.cu1 j := by
  unfold PCA.reconstructRaw
  have huse : PCA.useCount PCA.cPca 6 = 6 := by
    unfold PCA.useCount
    rw [PCA.cComps_len]
    norm_num
  rw [huse]
  have hsub : ({0} : Finset ℕ) ⊆ Finset.range 6 := by decide
  have hz : ∀ x ∈ Finset.range 6, x ∉ ({0} : Finset ℕ) →
      PCA.projectCoeff PCA.cSample PCA.cPca x *
        PCA.cPca.components.getD x (fun _ => 0) j = 0 := by
    intro x hx hxn
    simp only [Finset.mem_singleton] at hxn
    have hx6 := Finset.mem_range.mp hx
    rw [PCA.coeff_other x (by omega) hxn (by omega), zero_mul]
  rw [← Finset.sum_subset hsub hz, Finset.sum_singleton, PCA.coeff0,
    PCA.cComps_getD (by omega : (0 : ℕ) < 30), show PCA.cComp 0 = PCA.cu1 from rfl]

/-- The rank-30 raw reconstruction of the concrete sample. -/
theorem PCA.recon30_at (j : ℕ) : PCA.reconstructRaw PCA.cSample PCA.cPca 30 j =
    PCA.cPca.mean j + (7/12 * PCA.cu1 j + -(1/3) * PCA.cu2 j) := by
  unfold PCA.reconstructRaw
  have huse : PCA.useCount PCA.cPca 30 = 30 := by
    unfold PCA.useCount
    rw [PCA.cComps_len]
    norm_num
  rw [huse]
  have hsub : ({0, 6} : Finset ℕ) ⊆ Finset.range 30 := by decide
  have hz : ∀ x ∈ Finset.range 30, x ∉ ({0, 6} : Finset ℕ) →
      PCA.projectCoeff PCA.cSample PCA.cPca x *
        PCA.cPca.components.getD x (fun _ => 0) j = 0 := by
    intro x hx hxn
    simp only [Finset.mem_insert, Finset.mem_singleton] at hxn
    push_neg at hxn
    rw [PCA.coeff_other x (Finset.mem_range.mp hx) hxn.1 hxn.2, zero_mul]
  rw [← Finset.sum_subset hsub hz, Finset.sum_pair (by norm_num : (0 : ℕ) ≠ 6),
    PCA.coeff0, PCA.coeff6, PCA.cComps_getD (by omega : (0 : ℕ) < 30),
    PCA.cComps_getD (by omega : (6 : ℕ) < 30), show PCA.cComp 0 = PCA.cu1 from rfl,
    show PCA.cComp 6 = PCA.cu2 from rfl]

/-- The clamped rank-6 residual error of the concrete sample. -/
theorem PCA.err6_val : PCA.residualError PCA.cSample PCA.cPca 6 = 619/648 := by
  have h0 : PCA.reconstructVector PCA.cSample PCA.cPca 6 0 = 7/18 := by
    unfold PCA.reconstructVector
    rw [PCA.recon6_at]
    norm_num [PCA.cPca, PCA.cu1, PCA.clamp01, min_def, max_def]
  have h1 : PCA.reconstructVector PCA.cSample PCA.cPca 6 1 = 7/18 := by
    unfold PCA.reconstructVector
    rw [PCA.recon6_at]
    norm_num [PCA.cPca, PCA.cu1, PCA.clamp01, min_def, max_def]
  have h2 : PCA.reconstructVector PCA.cSample PCA.cPca 6 2 = 1 := by
    unfold PCA.reconstructVector
    rw [PCA.recon6_at]
    norm_num [PCA.cPca, PCA.cu1, PCA.clamp01, min_def, max_def]
  have hz : ∀ j, 3 ≤ j →
      (PCA.cSample j - PCA.reconstructVector PCA.cSample PCA.cPca 6 j) *
        (PCA.cSample j - PCA.reconstructVector PCA.cSample PCA.cPca 6 j) = 0 := by
    intro j hj
    have hr : PCA.reconstructVector PCA.cSample PCA.cPca 6 j = 0 := by
      unfold PCA.reconstructVector
      rw [PCA.recon6_at, PCA.cMean_eq_zero (by omega), PCA.cu1_eq_zero hj]
      norm_num [PCA.clamp01, min_def, max_def]
    rw [PCA.cSample_eq_zero hj, hr]
    ring
  unfold PCA.residualError PCA.squaredDistance
  rw [PCA.sum_DIM_support3 _ hz, h0, h1, h2]
  norm_num [PCA.cSample]

/-- The clamped rank-30 residual error of the concrete sample — larger
than the rank-6 error. -/
theorem PCA.err30_val : PCA.residualError PCA.cSample PCA.cPca 30 = 169/144 := by
  have h0 : PCA.reconstructVector PCA.cSample PCA.cPca 30 0 = 11/18 := by
    unfold PCA.reconstructVector
    rw [PCA.recon30_at]
    norm_num [PCA.cPca, PCA.cu1, PCA.cu2, PCA.clamp01, min_def, max_def]
  have h1 : PCA.reconstructVector PCA.cSample PCA.cPca 30 1 = 5/18 := by
    unfold PCA.reconstructVector
    rw [PCA.recon30_at]
    norm_num [PCA.cPca, PCA.cu1, PCA.cu2, PCA.clamp01, min_def, max_def]
  have h2 : PCA.reconstructVector PCA.cSample PCA.cPca 30 2 = 35/36 := by
    unfold PCA.reconstructVector
    rw [PCA.recon30_at]
    norm_num [PCA.cPca, PCA.cu1, PCA.cu2, PCA.clamp01, min_def, max_def]
  have hz : ∀ j, 3 ≤ j →
      (PCA.cSample j - PCA.reconstructVector PCA.cSample PCA.cPca 30 j) *
        (PCA.cSample j - PCA.reconstructVector PCA.cSample PCA.cPca 30 j) = 0 := by
    intro j hj
    have hr : PCA.reconstructVector PCA.cSample PCA.cPca 30 j = 0 := by
      unfold PCA.reconstructVector
      rw [PCA.recon30_at, PCA.cMean_eq_zero (by omega), PCA.cu1_eq_zero hj,
        PCA.cu2_eq_zero hj]
      norm_num [PCA.clamp01, min_def, max_def]
    rw [PCA.cSample_eq_zero hj, hr]
    ring
  unfold PCA.residualError PCA.squaredDistance
  rw [PCA.sum_DIM_support3 _ hz, h0, h1, h2]
  norm_num [PCA.cSample]

/-- The concrete sample is a valid pixel vector. -/
theorem PCA.cSample_inbox : PCA.InUnitBox PCA.cSample := by
  intro j _
  unfold PCA.cSample
  split_ifs <;> norm_num

/-- The concrete mean is a valid pixel vector. -/
theorem PCA.cMean_inbox : PCA.InUnitBox PCA.cPca.mean := by
  intro j _
  show 0 ≤ (if j = 2 then (1 : ℚ) else 0) ∧ (if j = 2 then (1 : ℚ) else 0) ≤ 1
  split_ifs <;> norm_num

/-- C8, counterexample: with the fixture abstracted to its spec-level
guarantees (30 orthonormal components over 784 pixels, in-range pixel
vectors), the claim fails: for this valid model and sample the clamped
residual error at rank 30 (`169/144`) strictly exceeds the error at rank
6 (`619/648`) — the clamp to `[0,1]` can invert the rank ordering. -/
theorem C8_clamped_error_counterexample :
    PCA.cPca.components.length = 30 ∧
    PCA.Orthonormal PCA.cPca ∧
    PCA.InUnitBox PCA.cSample ∧
    PCA.InUnitBox PCA.cPca.mean ∧
    PCA.residualError PCA.cSample PCA.cPca 6 < PCA.residualError PCA.cSample PCA.cPca 30 := by
  refine ⟨PCA.cComps_len, PCA.cPca_orthonormal, PCA.cSample_inbox, PCA.cMean_inbox, ?_⟩
  rw [PCA.err6_val, PCA.err30_val]
  norm_num

/-- C8, amended: for orthonormal components the *un-clamped* residual
error of `reconstructVector`'s accumulation is non-increasing from the
6-component preset to the 30-component preset (indeed monotone in rank),
and for an in-range sample the final `[0,1]` pixel clamp never increases
the error relative to the un-clamped reconstruction; the clamped errors
themselves need not be monotone in rank. -/
theorem C8_reconstruction_error_monotone_unclamped :
    (∀ (pca : PCA.PcaModel) (v : ℕ → ℚ) (k1 k2 : ℕ), PCA.Orthonormal pca → k1 ≤ k2 →
      PCA.residualRawError v pca k2 ≤ PCA.residualRawError v pca k1) ∧
    (∀ (pca : PCA.PcaModel) (v : ℕ → ℚ) (k : ℕ), PCA.InUnitBox v →
      PCA.residualError v pca k ≤ PCA.residualRawError v pca k) :=
  ⟨fun pca v k1 k2 h hk => PCA.rawError_mono v pca k1 k2 h hk,
   fun pca v k hbox => PCA.clampedError_le v pca k hbox⟩

/-- C8 witness: the amended statement at the concrete model — the raw
error at rank 30 is below the raw error at rank 6, and the clamped
error is below the raw error. -/
theorem C8_reconstruction_error_monotone_unclamped_witness :
    PCA.residualRawError PCA.cSample PCA.cPca 30 ≤
      PCA.residualRawError PCA.cSample PCA.cPca 6 ∧
    PCA.residualError PCA.cSample PCA.cPca 30 ≤
      PCA.residualRawError PCA.cSample PCA.cPca 30 :=
  ⟨C8_reconstruction_error_monotone_unclamped.1 PCA.cPca PCA.cSample 6 30
      PCA.cPca_orthonormal (by norm_num),
   C8_reconstruction_error_monotone_unclamped.2 PCA.cPca PCA.cSample 30 PCA.cSample_inbox⟩
